import Mathlib

/-!
Verification development for the MIDORI2 loading / EDA pipeline
(`loader.py`, `eda.py`).

Strings are modelled as `List Char`.  Python's `str.strip()` trims the six
ASCII whitespace characters; `str.split(sep)` on a one-character separator is
`splitOnChar`; `str.lstrip('>')` is `dropWhile (· = '>')`; `s.split('.')[0]`
is `takeWhile (· ≠ '.')`.  File input is modelled as the list of raw lines
handed to the `for linea in f` loop (each loop body strips the line itself,
as the source does).  pandas operations used by the source are embedded with
their documented semantics: `pd.merge(..., how='inner')` is the
order-preserving left-major inner equi-join with duplicate-key fan-out;
`Series.nunique()` counts distinct values; `mean/median/min/max` of an empty
series are NaN (modelled as `none`); `Series.std()` uses the sample
convention `ddof=1`, NaN for fewer than two observations.
-/

/-- The six characters Python's argumentless `str.strip()` removes. -/
def isPyWs (c : Char) : Bool :=
  c = ' ' || c = '\t' || c = '\n' || c = '\r' || c = '\x0b' || c = '\x0c'

/-- Python `str.strip()`: drop leading and trailing whitespace. -/
def pyStrip (l : List Char) : List Char :=
  ((l.dropWhile isPyWs).reverse.dropWhile isPyWs).reverse

/-- Python `str.split(sep)` for a one-character separator: always returns at
least one (possibly empty) field. -/
def splitOnChar (sep : Char) : List Char → List (List Char)
  | [] => [[]]
  | c :: rest =>
    if c = sep then [] :: splitOnChar sep rest
    else
      match splitOnChar sep rest with
      | h :: t => (c :: h) :: t
      | [] => [[c]]

/-- The regex `re.match(r'^([^.]+\.\d+)', s)` of `extraer_id_base`: a
non-empty dot-free prefix, a literal dot, then the maximal non-empty digit
run.  (Backtracking cannot produce any other match: every shorter candidate
for `[^.]+` is followed by a non-dot character.) -/
def matchIdBase (l : List Char) : Option (List Char) :=
  match l.dropWhile (fun c => decide (c ≠ '.')) with
  | '.' :: r2 =>
    let a := l.takeWhile (fun c => decide (c ≠ '.'))
    let d := r2.takeWhile Char.isDigit
    if a = [] ∨ d = [] then none else some (a ++ '.' :: d)
  | _ => none

/-- Embedding of `extraer_id_base` (`loader.py`): strip leading `>` markers, return the
`ACCESSION.VERSION` prefix when the pattern matches, otherwise the text
before the first dot. -/
def extraerIdBase (identificador : List Char) : List Char :=
  let idLimpio := identificador.dropWhile (· = '>')
  match matchIdBase idLimpio with
  | some r => r
  | none => idLimpio.takeWhile (fun c => decide (c ≠ '.'))

/-- Embedding of `normalizar_nombre_taxonomico` (`loader.py`):
`nombre.lower().replace(' ', '_').strip()` guarded by an emptiness check.
Note the source order: spaces are replaced by underscores BEFORE the strip,
so the strip never sees a space. -/
def normalizarNombreTaxonomico (nombre : List Char) : List Char :=
  if nombre = [] then []
  else pyStrip ((nombre.map Char.toLower).map (fun c => if c = ' ' then '_' else c))

/-- Does the list have the shape `'_' :: ds` with `ds` a non-empty run of
digits?  This is the `_\d+$` tail of the segment regex. -/
def tailIsUnderscoreDigits : List Char → Bool
  | [] => false
  | c :: ds => c = '_' && !ds.isEmpty && ds.all Char.isDigit

/-- The lazy group `(.+?)` of `re.match(r'^([kgpcofs])__(.+?)_\d+$', parte)`:
consume name characters one at a time (`.` matches anything but a newline),
stopping at the first position where the remainder is `_` followed by digits
only.  Returns the captured name. -/
def findName : List Char → Option (List Char)
  | [] => none
  | c :: rest =>
    if c = '\n' then none
    else if tailIsUnderscoreDigits rest then some [c]
    else (findName rest).map (c :: ·)

/-- Rank-prefix letters accepted by the segment regex. -/
def rankChars : List Char := ['k', 'g', 'p', 'c', 'o', 'f', 's']

/-- One segment of the lineage string: `some (rankLetter, name)` when the
segment matches `^([kgpcofs])__(.+?)_\d+$`. -/
def matchSegment : List Char → Option (Char × List Char)
  | c :: u1 :: u2 :: rest =>
    if c ∈ rankChars ∧ u1 = '_' ∧ u2 = '_' then (findName rest).map (fun n => (c, n))
    else none
  | _ => none

/-- The dictionary built by `parsear_taxonomia`: one optional name per rank,
`none` meaning the key is absent. -/
structure Taxonomia where
  kingdom : Option (List Char) := none
  phylum : Option (List Char) := none
  class_ : Option (List Char) := none
  order : Option (List Char) := none
  family : Option (List Char) := none
  genus : Option (List Char) := none
  species : Option (List Char) := none
deriving DecidableEq, Repr

/-- The `if prefijo == 'k': ... elif ...` chain assigning a parsed name to
its rank key. -/
def setRank (t : Taxonomia) (p : Char) (n : List Char) : Taxonomia :=
  if p = 'k' then { t with kingdom := some n }
  else if p = 'p' then { t with phylum := some n }
  else if p = 'c' then { t with class_ := some n }
  else if p = 'o' then { t with order := some n }
  else if p = 'f' then { t with family := some n }
  else if p = 'g' then { t with genus := some n }
  else if p = 's' then { t with species := some n }
  else t

/-- Embedding of `parsear_taxonomia` (`loader.py`): split on `;`, match each segment
against the rank pattern, store matching names (normalized when requested,
later segments overwriting earlier ones), silently skip the rest. -/
def parsearTaxonomia (taxonomiaStr : List Char) (normalizar : Bool := true) : Taxonomia :=
  (splitOnChar ';' taxonomiaStr).foldl
    (fun t parte =>
      match matchSegment parte with
      | some (p, nombre) =>
        setRank t p (if normalizar then normalizarNombreTaxonomico nombre else nombre)
      | none => t)
    {}

/-- Lookup of a rank key assigned by `setRank`; used to state properties of
the parsed dictionary uniformly over the seven rank letters. -/
def getRank (t : Taxonomia) (p : Char) : Option (List Char) :=
  if p = 'k' then t.kingdom
  else if p = 'p' then t.phylum
  else if p = 'c' then t.class_
  else if p = 'o' then t.order
  else if p = 'f' then t.family
  else if p = 'g' then t.genus
  else if p = 's' then t.species
  else none

/-- One row of the sequence table built by `cargar_fasta`. -/
structure SequenceRecord where
  sequence_id : List Char
  dna_sequence : List Char
deriving DecidableEq, Repr

/-- One row of the lineage table built by `cargar_taxon`: the `class` column
of the source is called `class_` here because `class` is reserved in Lean. -/
structure LineageRecord where
  sequence_id : List Char
  kingdom : List Char
  phylum : List Char
  class_ : List Char
  order : List Char
  family : List Char
  genus : List Char
  species : List Char
deriving DecidableEq, Repr

/-- One row of the joined table produced by `cargar_dataset` (the column
union of the two sides, keyed by `sequence_id`). -/
structure JoinedRecord where
  sequence_id : List Char
  dna_sequence : List Char
  kingdom : List Char
  phylum : List Char
  class_ : List Char
  order : List Char
  family : List Char
  genus : List Char
  species : List Char
deriving DecidableEq, Repr

/-- Python `linea.startswith('>')`. -/
def startsGt : List Char → Bool
  | [] => false
  | c :: _ => c = '>'

/-- The `for linea in f` loop of `cargar_fasta`, carrying the loop state
`id_actual` / `secuencia_actual` (the accumulated sequence lines kept
already concatenated, as `''.join` will flatten them anyway), followed by
the final flush after the loop.  Each raw line is stripped on entry, a `>`
line flushes the pending record and opens a new one, any other line is
appended only when a record is open. -/
def cargarFastaAux : Option (List Char) → List Char → List (List Char) → List SequenceRecord
  | idActual, secuenciaActual, [] =>
    match idActual with
    | some i => [⟨i, secuenciaActual⟩]
    | none => []
  | idActual, secuenciaActual, l :: ls =>
    let linea := pyStrip l
    if startsGt linea then
      (match idActual with
       | some i => [⟨i, secuenciaActual⟩]
       | none => []) ++
        cargarFastaAux (some (extraerIdBase (linea.drop 1))) [] ls
    else
      match idActual with
      | some i => cargarFastaAux (some i) (secuenciaActual ++ linea) ls
      | none => cargarFastaAux none secuenciaActual ls

/-- Embedding of `cargar_fasta` (`loader.py`), the file abstracted to its
list of raw lines. -/
def cargarFasta (lines : List (List Char)) : List SequenceRecord :=
  cargarFastaAux none [] lines

/-- Embedding of `cargar_taxon` (`loader.py`): strip each line, skip blank
lines, split on tab, skip lines with fewer than two fields, and build one
`LineageRecord` from the remainder, defaulting absent ranks to the empty
string. -/
def cargarTaxon (lines : List (List Char)) (normalizar : Bool := true) : List LineageRecord :=
  match lines with
  | [] => []
  | l :: ls =>
    let linea := pyStrip l
    if linea = [] then cargarTaxon ls normalizar
    else
      match splitOnChar '\t' linea with
      | p0 :: p1 :: _ =>
        let t := parsearTaxonomia p1 normalizar
        { sequence_id := extraerIdBase p0
          kingdom := t.kingdom.getD []
          phylum := t.phylum.getD []
          class_ := t.class_.getD []
          order := t.order.getD []
          family := t.family.getD []
          genus := t.genus.getD []
          species := t.species.getD [] } :: cargarTaxon ls normalizar
      | _ => cargarTaxon ls normalizar

/-- The column merge of one fasta row with one taxon row sharing a key. -/
def joinRow (f : SequenceRecord) (t : LineageRecord) : JoinedRecord :=
  { sequence_id := f.sequence_id
    dna_sequence := f.dna_sequence
    kingdom := t.kingdom
    phylum := t.phylum
    class_ := t.class_
    order := t.order
    family := t.family
    genus := t.genus
    species := t.species }

/-- Embedding of `pd.merge(df_fasta, df_taxon, on='sequence_id',
how='inner')`: for each left row in order, one output row per right row
with the same key (standard inner equi-join with duplicate-key fan-out). -/
def mergeInner (fasta : List SequenceRecord) (taxon : List LineageRecord) : List JoinedRecord :=
  fasta.flatMap fun f =>
    (taxon.filter fun t => t.sequence_id = f.sequence_id).map (joinRow f)

/-- Embedding of `cargar_dataset` (`loader.py`): load both tables and
inner-join them on `sequence_id` (console prints dropped). -/
def cargarDataset (taxonLines fastaLines : List (List Char)) (normalizar : Bool := true) :
    List JoinedRecord :=
  mergeInner (cargarFasta fastaLines) (cargarTaxon taxonLines normalizar)

/-- Specification-side view of the sequence file (spec sections 3 and 4.3.2):
the stripped lines decomposed into header blocks, each block keeping its
header remainder and the list of its sequence lines, in file order.  Used to
compare `cargarFasta` against the wording of the spec. -/
def specBlocksAux (hd : List Char) (body : List (List Char)) :
    List (List Char) → List (List Char × List (List Char))
  | [] => [(hd, body)]
  | l :: ls =>
    if startsGt l then (hd, body) :: specBlocksAux (l.drop 1) [] ls
    else specBlocksAux hd (body ++ [l]) ls

/-- Specification-side view, entry point: lines before the first header
belong to no block. -/
def specBlocks : List (List Char) → List (List Char × List (List Char))
  | [] => []
  | l :: ls => if startsGt l then specBlocksAux (l.drop 1) [] ls else specBlocks ls

/-- Rendering of one spec-side block as the record the spec promises for it:
the canonical id of the header, and the flat concatenation of the block's
sequence lines in file order. -/
def renderBlock (b : List Char × List (List Char)) : SequenceRecord :=
  ⟨extraerIdBase b.1, b.2.flatten⟩

/-- Embedding of `Series.nunique()` for a string column: the number of
distinct values. -/
def nunique (xs : List (List Char)) : Nat := xs.dedup.length

/-- Embedding of `Series.mean()` over integer lengths: NaN (`none`) on an
empty series, otherwise the arithmetic mean as a rational. -/
def seriesMean (xs : List Nat) : Option ℚ :=
  if xs = [] then none else some ((xs.sum : ℚ) / (xs.length : ℚ))

/-- Embedding of `Series.median()` over integer lengths: NaN (`none`) on an
empty series, the middle element of the sorted data for odd length, the mean
of the two middle elements for even length. -/
def seriesMedian (xs : List Nat) : Option ℚ :=
  if xs = [] then none
  else
    let s := List.insertionSort (· ≤ ·) xs
    let n := xs.length
    if n % 2 = 1 then some ((s.getD (n / 2) 0 : ℚ))
    else some (((s.getD (n / 2 - 1) 0 : ℚ) + (s.getD (n / 2) 0 : ℚ)) / 2)

/-- Embedding of `Series.std()` over integer lengths, squared to stay in the
rationals: pandas uses the sample convention `ddof=1`, so the result is NaN
(`none`) for fewer than two observations and otherwise the sum of squared
deviations divided by `n - 1` (the square of the reported standard
deviation; squaring preserves definedness and the `ddof` convention, which
is all the claims about this statistic concern). -/
def seriesStdSq (xs : List Nat) : Option ℚ :=
  if xs.length ≤ 1 then none
  else
    let mu : ℚ := (xs.sum : ℚ) / (xs.length : ℚ)
    some ((xs.map fun x => ((x : ℚ) - mu) ^ 2).sum / ((xs.length : ℚ) - 1))

/-- The dictionary returned by `calcular_estadisticas` (`eda.py`).  The
`longitud_std` entry holds the square of the reported standard deviation
(see `seriesStdSq`); `none` models a NaN entry. -/
structure Estadisticas where
  total_registros : Nat
  secuencias_unicas : Nat
  especies_unicas : Nat
  generos_unicos : Nat
  familias_unicas : Nat
  ordenes_unicos : Nat
  clases_unicas : Nat
  filos_unicos : Nat
  reinos_unicos : Nat
  longitud_promedio : Option ℚ
  longitud_mediana : Option ℚ
  longitud_min : Option Nat
  longitud_max : Option Nat
  longitud_std : Option ℚ
deriving DecidableEq, Repr

/-- Embedding of `calcular_estadisticas` (`eda.py`) over the joined rows. -/
def calcularEstadisticas (df : List JoinedRecord) : Estadisticas :=
  let longitudes := df.map fun r => r.dna_sequence.length
  { total_registros := df.length
    secuencias_unicas := nunique (df.map (·.sequence_id))
    especies_unicas := nunique (df.map (·.species))
    generos_unicos := nunique (df.map (·.genus))
    familias_unicas := nunique (df.map (·.family))
    ordenes_unicos := nunique (df.map (·.order))
    clases_unicas := nunique (df.map (·.class_))
    filos_unicos := nunique (df.map (·.phylum))
    reinos_unicos := nunique (df.map (·.kingdom))
    longitud_promedio := seriesMean longitudes
    longitud_mediana := seriesMedian longitudes
    longitud_min := longitudes.min?
    longitud_max := longitudes.max?
    longitud_std := seriesStdSq longitudes }

/-! ### Generic helper lemmas -/

lemma uint32_le_iff (a b : UInt32) : (a ≤ b) ↔ a.toNat ≤ b.toNat := by
  rw [UInt32.le_def]; exact BitVec.le_def ..

lemma char_toNat_ofNat {n : Nat} (h : n.isValidChar) : (Char.ofNat n).toNat = n := by
  simp [Char.ofNat, h, Char.ofNatAux, Char.toNat, UInt32.toNat, BitVec.toNat_ofNatLt]

lemma toLower_not_upper (c : Char) : (Char.toLower c).isUpper = false := by
  unfold Char.toLower Char.isUpper
  by_cases h : c.toNat ≥ 65 ∧ c.toNat ≤ 90
  · rw [if_pos h]
    have hval : Nat.isValidChar (c.toNat + 32) := by left; omega
    have hn : (Char.ofNat (c.toNat + 32)).toNat = c.toNat + 32 := char_toNat_ofNat hval
    have h90 : ¬ ((Char.ofNat (c.toNat + 32)).val ≤ 90) := by
      rw [uint32_le_iff]
      have h1 : ((90 : UInt32)).toNat = 90 := rfl
      have h2 : (Char.ofNat (c.toNat + 32)).val.toNat = (Char.ofNat (c.toNat + 32)).toNat := rfl
      omega
    simp [h90]
  · rw [if_neg h]
    have hcv : c.val.toNat = c.toNat := rfl
    rcases not_and_or.mp h with h1 | h1
    · have hlt : ¬ (c.val ≥ 65) := by
        rw [ge_iff_le, uint32_le_iff]
        have h2 : ((65 : UInt32)).toNat = 65 := rfl
        omega
      simp [hlt]
    · have hlt : ¬ (c.val ≤ 90) := by
        rw [uint32_le_iff]
        have h2 : ((90 : UInt32)).toNat = 90 := rfl
        omega
      simp [hlt]

lemma takeWhile_eq_self_of_all {α : Type} {p : α → Bool} {l : List α}
    (h : ∀ x ∈ l, p x = true) : l.takeWhile p = l :=
  List.takeWhile_eq_self_iff.mpr h

lemma dropWhile_eq_nil_of_all {α : Type} {p : α → Bool} {l : List α}
    (h : ∀ x ∈ l, p x = true) : l.dropWhile p = [] :=
  List.dropWhile_eq_nil_iff.mpr h

lemma takeWhile_append_cons {α : Type} {p : α → Bool} {a : List α} {c : α} {d : List α}
    (ha : ∀ x ∈ a, p x = true) (hc : p c = false) :
    (a ++ c :: d).takeWhile p = a := by
  induction a with
  | nil => simp [List.takeWhile_cons, hc]
  | cons x xs ih =>
    have hx : p x = true := ha x (List.mem_cons_self ..)
    simp [List.takeWhile_cons, hx, ih (fun y hy => ha y (List.mem_cons_of_mem _ hy))]

lemma dropWhile_append_cons {α : Type} {p : α → Bool} {a : List α} {c : α} {d : List α}
    (ha : ∀ x ∈ a, p x = true) (hc : p c = false) :
    (a ++ c :: d).dropWhile p = c :: d := by
  induction a with
  | nil => simp [List.dropWhile_cons, hc]
  | cons x xs ih =>
    have hx : p x = true := ha x (List.mem_cons_self ..)
    simp [List.dropWhile_cons, hx, ih (fun y hy => ha y (List.mem_cons_of_mem _ hy))]

lemma head?_dropWhile_false {α : Type} {p : α → Bool} {l : List α} {x : α}
    (h : (l.dropWhile p).head? = some x) : p x = false := by
  have h2 := List.head?_dropWhile_not p l
  rw [h] at h2
  simpa using h2

lemma dropWhile_eq_self_of_head? {α : Type} {p : α → Bool} {l : List α}
    (h : ∀ x, l.head? = some x → p x = false) : l.dropWhile p = l := by
  cases l with
  | nil => rfl
  | cons c cs => simp [List.dropWhile_cons, h c rfl]

lemma head?_of_takeWhile_cons {α : Type} {p : α → Bool} {l : List α} {x : α} {xs : List α}
    (h : l.takeWhile p = x :: xs) : l.head? = some x := by
  cases l with
  | nil => simp at h
  | cons c cs =>
    rw [List.takeWhile_cons] at h
    by_cases hc : p c
    · rw [if_pos hc] at h
      cases h
      rfl
    · rw [if_neg hc] at h
      cases h

/-- Characterization of a successful `matchIdBase`: the result is the
dot-free prefix, the dot, and a non-empty digit run. -/
lemma matchIdBase_some {l r : List Char} (h : matchIdBase l = some r) :
    ∃ a d, r = a ++ '.' :: d ∧ a = l.takeWhile (fun c => decide (c ≠ '.')) ∧
      a ≠ [] ∧ d ≠ [] ∧ ∀ x ∈ d, x.isDigit = true := by
  unfold matchIdBase at h
  split at h
  next r2 heq =>
    by_cases hg : l.takeWhile (fun c => decide (c ≠ '.')) = [] ∨ r2.takeWhile Char.isDigit = []
    · rw [if_pos hg] at h
      simp at h
    · rw [if_neg hg] at h
      push_neg at hg
      refine ⟨l.takeWhile (fun c => decide (c ≠ '.')), r2.takeWhile Char.isDigit,
        (Option.some_injective _ h).symm, rfl, hg.1, hg.2, ?_⟩
      intro x hx
      exact List.mem_takeWhile_imp (p := Char.isDigit) hx
  next heq hne => simp at h

/-- A successful match is itself matched, unchanged. -/
lemma matchIdBase_fix {l r : List Char} (h : matchIdBase l = some r) :
    matchIdBase r = some r := by
  obtain ⟨a, d, hr, ha, hane, hdne, hdig⟩ := matchIdBase_some h
  have haprop : ∀ x ∈ a, (decide (x ≠ '.')) = true := by
    intro x hx
    rw [ha] at hx
    exact List.mem_takeWhile_imp (p := fun c => decide (c ≠ '.')) hx
  have hdot : (decide (('.' : Char) ≠ '.')) = false := by simp
  unfold matchIdBase
  rw [hr, dropWhile_append_cons haprop hdot]
  have htw : (a ++ '.' :: d).takeWhile (fun c => decide (c ≠ '.')) = a :=
    takeWhile_append_cons haprop hdot
  have htd : d.takeWhile Char.isDigit = d := takeWhile_eq_self_of_all hdig
  simp only [htw, htd]
  rw [if_neg (by simp [hane, hdne])]

/-- The head of a successful match is the head of the input. -/
lemma matchIdBase_head? {l r : List Char} (h : matchIdBase l = some r) :
    r.head? = l.head? := by
  obtain ⟨a, d, hr, ha, hane, hdne, hdig⟩ := matchIdBase_some h
  obtain ⟨x, xs, hx⟩ := List.exists_cons_of_ne_nil hane
  subst hr
  rw [hx]
  simp only [List.cons_append, List.head?_cons]
  have hx2 : l.takeWhile (fun c => decide (c ≠ '.')) = x :: xs := by rw [← ha]; exact hx
  exact (head?_of_takeWhile_cons hx2).symm

/-- C3: for every input string `s`,
`extract_base_id (extract_base_id s) = extract_base_id s`: the extractor is
idempotent. -/
theorem extraer_id_base_idempotent (s : List Char) :
    extraerIdBase (extraerIdBase s) = extraerIdBase s := by
  unfold extraerIdBase
  cases hm : matchIdBase (s.dropWhile (· = '>')) with
  | some r =>
    simp only [hm]
    have hrh : r.head? = (s.dropWhile (· = '>')).head? := matchIdBase_head? hm
    have hrhead : ∀ x, r.head? = some x → (decide (x = '>')) = false := by
      intro x hx
      rw [hrh] at hx
      exact head?_dropWhile_false (p := fun c => decide (c = '>')) hx
    rw [dropWhile_eq_self_of_head? hrhead]
    simp only [matchIdBase_fix hm]
  | none =>
    simp only [hm]
    have hrprop : ∀ x ∈ (s.dropWhile (· = '>')).takeWhile (fun c => decide (c ≠ '.')),
        (decide (x ≠ '.')) = true := by
      intro x hx
      exact List.mem_takeWhile_imp (p := fun c => decide (c ≠ '.')) hx
    have hrhead : ∀ x,
        ((s.dropWhile (· = '>')).takeWhile (fun c => decide (c ≠ '.'))).head? = some x →
        (decide (x = '>')) = false := by
      intro x hx
      cases hr : (s.dropWhile (· = '>')).takeWhile (fun c => decide (c ≠ '.')) with
      | nil => rw [hr] at hx; simp at hx
      | cons y ys =>
        rw [hr] at hx
        simp only [List.head?_cons, Option.some_inj] at hx
        have hh := head?_of_takeWhile_cons hr
        rw [hx] at hh
        exact head?_dropWhile_false (p := fun c => decide (c = '>')) hh
    rw [dropWhile_eq_self_of_head? hrhead]
    have hmr : matchIdBase
        ((s.dropWhile (· = '>')).takeWhile (fun c => decide (c ≠ '.'))) = none := by
      unfold matchIdBase
      rw [dropWhile_eq_nil_of_all hrprop]
    simp only [hmr]
    exact takeWhile_eq_self_of_all hrprop

/-- C2: `compute_summary` on the empty record collection yields zero for the
total count and every distinct-value count, and the NaN marker (`none`) for
all five length statistics.  The embedded function is total, mirroring the
source, which raises nothing on an empty (but schema-complete) frame. -/
theorem calcular_estadisticas_empty :
    calcularEstadisticas [] =
      { total_registros := 0, secuencias_unicas := 0, especies_unicas := 0,
        generos_unicos := 0, familias_unicas := 0, ordenes_unicos := 0,
        clases_unicas := 0, filos_unicos := 0, reinos_unicos := 0,
        longitud_promedio := none, longitud_mediana := none,
        longitud_min := none, longitud_max := none, longitud_std := none } := by
  rfl

/-- C6: `parse_lineage("malformed;;k__X_1")` with normalization yields a
dictionary whose only entry is kingdom bound to "x"; the malformed and
empty segments contribute nothing, and the parse is total (never raises). -/
theorem parsear_taxonomia_malformed :
    parsearTaxonomia "malformed;;k__X_1".data true = { kingdom := some "x".data } := by
  rfl

/-- C10: the standard deviation uses the pandas default sample convention
(`ddof=1`): on a single record it is NaN (`none`), not 0; on the two-record
collection with sequence lengths 0 and 2 the squared deviation sum 2 is
divided by `n - 1 = 1`, giving squared std 2 (the population convention
would give 1). -/
theorem calcular_estadisticas_std_sample (r : JoinedRecord) :
    (calcularEstadisticas [r]).longitud_std = none
    ∧ (calcularEstadisticas [r]).longitud_std ≠ some 0
    ∧ (calcularEstadisticas
        [⟨"a".data, [], [], [], [], [], [], [], []⟩,
         ⟨"b".data, "GT".data, [], [], [], [], [], [], []⟩]).longitud_std = some 2 := by
  refine ⟨?_, ?_, ?_⟩
  · simp [calcularEstadisticas, seriesStdSq]
  · simp [calcularEstadisticas, seriesStdSq]
  · norm_num [calcularEstadisticas, seriesStdSq]

/-- C1: `cargar_dataset` is the inner equi-join on `sequence_id` of the two
loaded tables: every joined row's key occurs on both sides (rows without a
counterpart are dropped), the cardinality is cross-multiplicative per key,
and the one-sequence-row/two-lineage-rows instance keyed "X1" fans out to
exactly 2 joined records. -/
theorem cargar_dataset_inner_join (tl fl : List (List Char)) (b : Bool)
    (F : List SequenceRecord) (T : List LineageRecord) :
    cargarDataset tl fl b = mergeInner (cargarFasta fl) (cargarTaxon tl b)
    ∧ (∀ j ∈ mergeInner F T,
        (∃ f ∈ F, f.sequence_id = j.sequence_id) ∧ ∃ t ∈ T, t.sequence_id = j.sequence_id)
    ∧ (mergeInner F T).length
        = (F.map fun f => (T.filter fun t => t.sequence_id = f.sequence_id).length).sum
    ∧ (cargarDataset ["X1\tk__A_1".data, "X1\tk__B_2".data]
        [">X1".data, "ACGT".data] true).length = 2 := by
  refine ⟨rfl, ?_, ?_, by rfl⟩
  · intro j hj
    rw [mergeInner, List.mem_flatMap] at hj
    obtain ⟨f, hf, hj2⟩ := hj
    rw [List.mem_map] at hj2
    obtain ⟨t, ht, rfl⟩ := hj2
    rw [List.mem_filter] at ht
    refine ⟨⟨f, hf, rfl⟩, t, ht.1, ?_⟩
    simpa using ht.2
  · rw [mergeInner, List.length_flatMap]
    simp [Function.comp_def]

/-- Witness for C1 at concrete tables: the fan-out instance and the
both-sides membership of its first joined row. -/
theorem cargar_dataset_inner_join_witness :
    (cargarDataset ["X1\tk__A_1".data, "X1\tk__B_2".data]
      [">X1".data, "ACGT".data] true).length = 2
    ∧ ((∃ f ∈ [(⟨"X1".data, "ACGT".data⟩ : SequenceRecord)],
          f.sequence_id = "X1".data)
       ∧ ∃ t ∈ [(⟨"X1".data, "a".data, [], [], [], [], [], []⟩ : LineageRecord),
                 (⟨"X1".data, "b".data, [], [], [], [], [], []⟩ : LineageRecord)],
          t.sequence_id = "X1".data) := by
  constructor
  · exact (cargar_dataset_inner_join [] [] true [] []).2.2.2
  · exact (cargar_dataset_inner_join [] [] true
      [⟨"X1".data, "ACGT".data⟩]
      [⟨"X1".data, "a".data, [], [], [], [], [], []⟩,
       ⟨"X1".data, "b".data, [], [], [], [], [], []⟩]).2.1
      (joinRow ⟨"X1".data, "ACGT".data⟩ ⟨"X1".data, "a".data, [], [], [], [], [], []⟩)
      (by decide)

/-- Stripping only removes characters: membership is preserved downward. -/
lemma mem_pyStrip {c : Char} {l : List Char} (h : c ∈ pyStrip l) : c ∈ l := by
  unfold pyStrip at h
  rw [List.mem_reverse] at h
  have h1 : c ∈ (l.dropWhile isPyWs).reverse :=
    (List.dropWhile_sublist _).mem h
  rw [List.mem_reverse] at h1
  exact (List.dropWhile_sublist _).mem h1

/-- The first character of a stripped string is never whitespace. -/
lemma pyStrip_head?_not_ws {l : List Char} {c : Char}
    (h : (pyStrip l).head? = some c) : isPyWs c = false := by
  unfold pyStrip at h
  rw [List.head?_reverse] at h
  obtain ⟨w, hw⟩ := List.dropWhile_suffix (l := (l.dropWhile isPyWs).reverse) isPyWs
  have hvne : ((l.dropWhile isPyWs).reverse.dropWhile isPyWs) ≠ [] := by
    intro he
    rw [he] at h
    simp at h
  have h2 : (l.dropWhile isPyWs).reverse.getLast? = some c := by
    rw [← hw, List.getLast?_append_of_ne_nil _ hvne]
    exact h
  rw [List.getLast?_reverse] at h2
  exact head?_dropWhile_false h2

/-- The last character of a stripped string is never whitespace. -/
lemma pyStrip_getLast?_not_ws {l : List Char} {c : Char}
    (h : (pyStrip l).getLast? = some c) : isPyWs c = false := by
  unfold pyStrip at h
  rw [List.getLast?_reverse] at h
  exact head?_dropWhile_false h

/-- C4 counterexample: on the input " A " (leading and trailing space) the
normalizer returns "_a_" — the output DOES start and end with a
space-derived character, because the source replaces spaces by underscores
before stripping, so leading/trailing spaces are never trimmed. -/
theorem normalizar_nombre_counterexample :
    normalizarNombreTaxonomico " A ".data = "_a_".data
    ∧ (normalizarNombreTaxonomico " A ".data).head? = some '_'
    ∧ (normalizarNombreTaxonomico " A ".data).getLast? = some '_' := by
  refine ⟨by rfl, by rfl, by rfl⟩

/-- C4 (amended): the normalizer lower-cases, replaces every space with an
underscore, and only then strips leading/trailing whitespace.  Hence the
output contains no space and no uppercase letter, never starts or ends with
a whitespace character, and the empty string maps to itself — but
leading/trailing spaces of the input surface as leading/trailing
underscores instead of being removed. -/
theorem normalizar_nombre_amended (s : List Char) :
    normalizarNombreTaxonomico [] = []
    ∧ ' ' ∉ normalizarNombreTaxonomico s
    ∧ (∀ c ∈ normalizarNombreTaxonomico s, c.isUpper = false)
    ∧ (∀ c, (normalizarNombreTaxonomico s).head? = some c → isPyWs c = false)
    ∧ (∀ c, (normalizarNombreTaxonomico s).getLast? = some c → isPyWs c = false) := by
  by_cases hs : s = []
  · subst hs
    refine ⟨rfl, by simp [normalizarNombreTaxonomico], by simp [normalizarNombreTaxonomico],
      ?_, ?_⟩ <;>
      · intro c hc
        simp [normalizarNombreTaxonomico] at hc
  · have hunfold : normalizarNombreTaxonomico s =
        pyStrip ((s.map Char.toLower).map (fun c => if c = ' ' then '_' else c)) := by
      unfold normalizarNombreTaxonomico
      rw [if_neg hs]
    refine ⟨rfl, ?_, ?_, ?_, ?_⟩
    · intro hc
      rw [hunfold] at hc
      have hc2 := mem_pyStrip hc
      rw [List.mem_map] at hc2
      obtain ⟨y, _, hy⟩ := hc2
      by_cases hy' : y = ' '
      · rw [if_pos hy'] at hy
        exact absurd hy (by decide)
      · rw [if_neg hy'] at hy
        exact hy' hy
    · intro c hc
      rw [hunfold] at hc
      have hc2 := mem_pyStrip hc
      rw [List.mem_map] at hc2
      obtain ⟨y, hymem, hy⟩ := hc2
      by_cases hy' : y = ' '
      · rw [if_pos hy'] at hy
        rw [← hy]
        decide
      · rw [if_neg hy'] at hy
        rw [List.mem_map] at hymem
        obtain ⟨x, _, hx⟩ := hymem
        rw [← hy, ← hx]
        exact toLower_not_upper x
    · intro c hc
      rw [hunfold] at hc
      exact pyStrip_head?_not_ws hc
    · intro c hc
      rw [hunfold] at hc
      exact pyStrip_getLast?_not_ws hc

/-- Witness for C4 (amended) at the concrete input " A b ": its
normalization "_a_b_" contains no space, and its head, an underscore
produced from the leading space, is not whitespace. -/
theorem normalizar_nombre_amended_witness :
    ' ' ∉ normalizarNombreTaxonomico " A b ".data ∧ isPyWs '_' = false :=
  ⟨(normalizar_nombre_amended " A b ".data).2.1,
   (normalizar_nombre_amended " A b ".data).2.2.2.1 '_' (by rfl)⟩

/-- A well-formed `_digits` tail satisfies the tail test. -/
lemma tailIsUD_true {ds : List Char} (h1 : ds ≠ []) (h2 : ds.all Char.isDigit = true) :
    tailIsUnderscoreDigits ('_' :: ds) = true := by
  simp [tailIsUnderscoreDigits, h2, h1]

/-- A tail that still contains the real final underscore further in cannot
be all digits, so the lazy match never stops early. -/
lemma tailIsUD_false_mid (c2 : Char) (q2 ds : List Char) :
    tailIsUnderscoreDigits (c2 :: (q2 ++ '_' :: ds)) = false := by
  have hall : (q2 ++ '_' :: ds).all Char.isDigit = false := by
    rw [List.all_append]
    have h1 : Char.isDigit '_' = false := by decide
    simp [List.all_cons, h1]
  simp [tailIsUnderscoreDigits, hall]

/-- Completeness of the lazy name capture: on a well-formed remainder
`name_digits` it recovers exactly `name`. -/
lemma findName_roundtrip (name ds : List Char) (hne : name ≠ [])
    (hnl : '\n' ∉ name) (hds : ds ≠ []) (hdig : ds.all Char.isDigit = true) :
    findName (name ++ '_' :: ds) = some name := by
  induction name with
  | nil => exact absurd rfl hne
  | cons c q ih =>
    have hc : ¬ (c = '\n') := fun h => hnl (by rw [h]; exact List.mem_cons_self ..)
    cases q with
    | nil =>
      have ht : tailIsUnderscoreDigits ('_' :: ds) = true := tailIsUD_true hds hdig
      simp [findName, hc, ht]
    | cons c2 q2 =>
      have ht : tailIsUnderscoreDigits (c2 :: (q2 ++ '_' :: ds)) = false :=
        tailIsUD_false_mid c2 q2 ds
      have hq : (c2 :: q2) ≠ [] := by simp
      have hnl2 : '\n' ∉ (c2 :: q2) := fun h => hnl (List.mem_cons_of_mem _ h)
      have hih := ih hq hnl2
      rw [List.cons_append]
      rw [show findName (c :: ((c2 :: q2) ++ '_' :: ds))
            = if c = '\n' then none
              else if tailIsUnderscoreDigits ((c2 :: q2) ++ '_' :: ds) then some [c]
              else (findName ((c2 :: q2) ++ '_' :: ds)).map (c :: ·) from rfl]
      rw [if_neg hc]
      rw [List.cons_append, ht]
      rw [List.cons_append] at hih
      simp [hih]

/-- Splitting on an absent separator is the identity (one field). -/
lemma splitOnChar_eq_single {sep : Char} {l : List Char} (h : sep ∉ l) :
    splitOnChar sep l = [l] := by
  induction l with
  | nil => rfl
  | cons c rest ih =>
    have hc : ¬ (c = sep) := fun he => h (by rw [he]; exact List.mem_cons_self ..)
    have hr : sep ∉ rest := fun hm => h (List.mem_cons_of_mem _ hm)
    simp [splitOnChar, hc, ih hr]

/-- Looking up the rank just assigned returns the assigned name. -/
lemma getRank_setRank (t : Taxonomia) (p : Char) (n : List Char) (hp : p ∈ rankChars) :
    getRank (setRank t p n) p = some n := by
  simp only [rankChars, List.mem_cons, List.not_mem_nil, or_false] at hp
  rcases hp with rfl | rfl | rfl | rfl | rfl | rfl | rfl <;> rfl

/-- C5 counterexample: the name "a;b" is non-empty and carries no trailing
underscore-digits ambiguity, yet parsing the segment built from it yields NO
kingdom entry at all (the claim requires kingdom bound to the normalized
name): the semicolon inside the name is consumed by the `split(';')`
preceding the segment regex, cutting the segment in two unmatchable
pieces. -/
theorem parsear_taxonomia_roundtrip_counterexample :
    (parsearTaxonomia ('k' :: '_' :: '_' :: ("a;b".data ++ '_' :: "1".data)) true).kingdom
        = none
    ∧ (parsearTaxonomia ('k' :: '_' :: '_' :: ("a;b".data ++ '_' :: "1".data)) true).kingdom
        ≠ some (normalizarNombreTaxonomico "a;b".data) := by
  refine ⟨by rfl, by decide⟩

/-- C5 (amended): for every rank letter, every non-empty name free of
semicolons and newlines (and, as always, of trailing underscore-digits
ambiguity — which the lazy capture in fact resolves by itself), and every
non-empty digit string, parsing the segment `rank__name_digits` binds the
rank to exactly the name, normalized when normalization is on. -/
theorem parsear_taxonomia_roundtrip (r : Char) (name ds : List Char) (b : Bool)
    (hr : r ∈ rankChars) (hname : name ≠ []) (hsemi : ';' ∉ name) (hnl : '\n' ∉ name)
    (hds : ds ≠ []) (hdig : ds.all Char.isDigit = true) :
    getRank (parsearTaxonomia (r :: '_' :: '_' :: (name ++ '_' :: ds)) b) r
      = some (if b then normalizarNombreTaxonomico name else name) := by
  have hrsemi : r ≠ ';' := by
    have h7 := hr
    simp only [rankChars, List.mem_cons, List.not_mem_nil, or_false] at h7
    rcases h7 with rfl | rfl | rfl | rfl | rfl | rfl | rfl <;> decide
  have hdsemi : ';' ∉ ds := by
    intro hm
    have := (List.all_eq_true.mp hdig) ';' hm
    exact absurd this (by decide)
  have hsep : ';' ∉ (r :: '_' :: '_' :: (name ++ '_' :: ds)) := by
    intro h
    rcases List.mem_cons.mp h with h | h
    · exact hrsemi h.symm
    rcases List.mem_cons.mp h with h | h
    · exact absurd h (by decide)
    rcases List.mem_cons.mp h with h | h
    · exact absurd h (by decide)
    rcases List.mem_append.mp h with h | h
    · exact hsemi h
    rcases List.mem_cons.mp h with h | h
    · exact absurd h (by decide)
    · exact hdsemi h
  unfold parsearTaxonomia
  rw [splitOnChar_eq_single hsep]
  simp only [List.foldl_cons, List.foldl_nil]
  rw [show matchSegment (r :: '_' :: '_' :: (name ++ '_' :: ds))
        = if r ∈ rankChars ∧ ('_' : Char) = '_' ∧ ('_' : Char) = '_'
          then (findName (name ++ '_' :: ds)).map (fun n => (r, n)) else none from rfl]
  rw [if_pos ⟨hr, rfl, rfl⟩]
  rw [findName_roundtrip name ds hname hnl hds hdig]
  exact getRank_setRank _ r _ hr

/-- Witness for C5 (amended) at the concrete segment
"s__Homo sapiens_99": the species rank is bound to "homo_sapiens". -/
theorem parsear_taxonomia_roundtrip_witness :
    getRank (parsearTaxonomia
        ('s' :: '_' :: '_' :: ("Homo sapiens".data ++ '_' :: "99".data)) true) 's'
      = some (normalizarNombreTaxonomico "Homo sapiens".data) := by
  have h := parsear_taxonomia_roundtrip 's' "Homo sapiens".data "99".data true
    (by decide) (by decide) (by decide) (by decide) (by decide) (by decide)
  simpa using h

/-- With no header line anywhere, the scanner emits nothing: `id_actual`
stays `None` and the final flush is skipped. -/
lemma cargarFastaAux_none_no_header {ls : List (List Char)} (acc : List Char)
    (h : ∀ l ∈ ls, startsGt (pyStrip l) = false) :
    cargarFastaAux none acc ls = [] := by
  induction ls with
  | nil => rfl
  | cons l ls ih =>
    have hl := h l (List.mem_cons_self ..)
    simp only [cargarFastaAux, hl]
    exact ih (fun x hx => h x (List.mem_cons_of_mem _ hx))

/-- When the final line is a header, the last record emitted is that
header's id with an empty accumulated sequence, whatever came before. -/
lemma cargarFastaAux_trailing_header (l : List Char) (hl : startsGt (pyStrip l) = true)
    (ls : List (List Char)) :
    ∀ (idOpt : Option (List Char)) (acc : List Char),
    (cargarFastaAux idOpt acc (ls ++ [l])).getLast?
      = some ⟨extraerIdBase ((pyStrip l).drop 1), []⟩ := by
  induction ls with
  | nil =>
    intro idOpt acc
    simp only [List.nil_append, cargarFastaAux, hl, if_true]
    cases idOpt <;> simp [cargarFastaAux]
  | cons x xs ih =>
    intro idOpt acc
    simp only [List.cons_append, cargarFastaAux, List.append_eq]
    by_cases hx : startsGt (pyStrip x)
    · rw [if_pos hx]
      have hr := ih (some (extraerIdBase ((pyStrip x).drop 1))) []
      have hne : cargarFastaAux (some (extraerIdBase ((pyStrip x).drop 1))) [] (xs ++ [l])
          ≠ [] := by
        intro h0
        rw [h0] at hr
        simp at hr
      rw [List.getLast?_append_of_ne_nil _ hne]
      exact hr
    · rw [if_neg hx]
      cases idOpt <;> exact ih _ _

/-- C7: a record is only emitted on a later header or end of input — an
input with no header produces nothing, and an input ending in a header
produces as its last record that header's id with an empty sequence. -/
theorem cargar_fasta_emission (ls ms : List (List Char)) (l : List Char)
    (ha : ∀ x ∈ ls, startsGt (pyStrip x) = false) (hb : startsGt (pyStrip l) = true) :
    cargarFasta ls = []
    ∧ (cargarFasta (ms ++ [l])).getLast? = some ⟨extraerIdBase ((pyStrip l).drop 1), []⟩ :=
  ⟨cargarFastaAux_none_no_header [] ha, cargarFastaAux_trailing_header l hb ms none []⟩

/-- Witness for C7: a headerless file emits nothing; a file whose last line
is the header ">B.2" ends in the record ⟨"B.2", ""⟩. -/
theorem cargar_fasta_emission_witness :
    cargarFasta ["ACGT".data] = []
    ∧ (cargarFasta ([">A.1".data, "AC".data] ++ [">B.2".data])).getLast?
        = some ⟨extraerIdBase ((pyStrip ">B.2".data).drop 1), []⟩ :=
  cargar_fasta_emission ["ACGT".data] [">A.1".data, "AC".data] ">B.2".data
    (by decide) (by decide)

/-- C9: every non-header line before the first header is discarded — it
contributes to no record and does not affect the output in any way. -/
theorem cargar_fasta_pre_header_discarded (pre rest : List (List Char))
    (h : ∀ x ∈ pre, startsGt (pyStrip x) = false) :
    cargarFasta (pre ++ rest) = cargarFasta rest := by
  unfold cargarFasta
  induction pre with
  | nil => rfl
  | cons x xs ih =>
    have hx := h x (List.mem_cons_self ..)
    simp only [List.cons_append, cargarFastaAux, hx]
    exact ih (fun y hy => h y (List.mem_cons_of_mem _ hy))

/-- Witness for C9: two junk lines before the first header leave the output
exactly that of the file without them. -/
theorem cargar_fasta_pre_header_discarded_witness :
    cargarFasta (["junk".data, "AAAA".data] ++ [">A.1".data, "ACGT".data])
      = cargarFasta [">A.1".data, "ACGT".data] :=
  cargar_fasta_pre_header_discarded ["junk".data, "AAAA".data]
    [">A.1".data, "ACGT".data] (by decide)

/-- Refinement of the scanner loop against the spec-side block view, open
block: the accumulated buffer is the flattening of the block body collected
so far. -/
lemma cargarFastaAux_some_spec (ls : List (List Char)) :
    ∀ (hd : List Char) (body : List (List Char)),
    cargarFastaAux (some (extraerIdBase hd)) body.flatten ls
      = (specBlocksAux hd body (ls.map pyStrip)).map renderBlock := by
  induction ls with
  | nil =>
    intro hd body
    simp [cargarFastaAux, specBlocksAux, renderBlock]
  | cons l ls ih =>
    intro hd body
    simp only [List.map_cons, cargarFastaAux, specBlocksAux, List.append_eq]
    by_cases hl : startsGt (pyStrip l)
    · rw [if_pos hl, if_pos hl]
      have h2 := ih ((pyStrip l).drop 1) []
      simp only [List.flatten_nil, List.drop_one] at h2
      simp [renderBlock, h2]
    · rw [if_neg hl, if_neg hl]
      have h2 := ih hd (body ++ [pyStrip l])
      simpa [List.flatten_append] using h2

/-- Refinement of the scanner loop against the spec-side block view, no
block open yet: non-header lines are skipped. -/
lemma cargarFastaAux_none_spec (ls : List (List Char)) :
    ∀ acc, cargarFastaAux none acc ls = (specBlocks (ls.map pyStrip)).map renderBlock := by
  induction ls with
  | nil => intro acc; rfl
  | cons l ls ih =>
    intro acc
    simp only [List.map_cons, cargarFastaAux, specBlocks]
    by_cases hl : startsGt (pyStrip l)
    · rw [if_pos hl, if_pos hl]
      have h2 := cargarFastaAux_some_spec ls ((pyStrip l).drop 1) []
      simp only [List.flatten_nil, List.drop_one] at h2
      simpa using h2
    · rw [if_neg hl, if_neg hl]
      exact ih acc

/-- If every (stripped) sequence line is whitespace-free, so is every
accumulated `dna_sequence`. -/
lemma cargarFastaAux_no_ws (ls : List (List Char)) :
    ∀ (idOpt : Option (List Char)) (acc : List Char),
    (∀ l ∈ ls, startsGt (pyStrip l) = false → ∀ c ∈ pyStrip l, isPyWs c = false) →
    (∀ c ∈ acc, isPyWs c = false) →
    ∀ r ∈ cargarFastaAux idOpt acc ls, ∀ c ∈ r.dna_sequence, isPyWs c = false := by
  induction ls with
  | nil =>
    intro idOpt acc hls hacc r hr
    cases idOpt with
    | none => simp [cargarFastaAux] at hr
    | some i =>
      simp only [cargarFastaAux, List.mem_singleton] at hr
      rw [hr]
      exact hacc
  | cons l ls ih =>
    intro idOpt acc hls hacc r hr
    have hls2 : ∀ x ∈ ls, startsGt (pyStrip x) = false → ∀ c ∈ pyStrip x, isPyWs c = false :=
      fun x hx => hls x (List.mem_cons_of_mem _ hx)
    simp only [cargarFastaAux, List.append_eq] at hr
    by_cases hl : startsGt (pyStrip l)
    · rw [if_pos hl] at hr
      rcases List.mem_append.mp hr with h | h
      · cases idOpt with
        | none => simp at h
        | some i =>
          rw [List.mem_singleton] at h
          rw [h]
          exact hacc
      · exact ih _ _ hls2 (by simp) r h
    · rw [if_neg hl] at hr
      cases idOpt with
      | none => exact ih _ _ hls2 hacc r hr
      | some i =>
        refine ih _ _ hls2 ?_ r hr
        intro c hc
        rcases List.mem_append.mp hc with h | h
        · exact hacc c h
        · exact hls l (List.mem_cons_self ..) (by simpa using hl) c h

/-- C8 counterexample: the sequence line "AC GT" has an internal space; the
produced record's `dna_sequence` is "AC GT" and contains the whitespace
character ' ' — only leading/trailing whitespace is trimmed, internal
whitespace survives, so the no-whitespace invariant fails as universally
stated. -/
theorem cargar_fasta_whitespace_counterexample :
    cargarFasta [">A.1".data, "AC GT".data] = [⟨"A.1".data, "AC GT".data⟩]
    ∧ ∃ r ∈ cargarFasta [">A.1".data, "AC GT".data],
        ' ' ∈ r.dna_sequence ∧ isPyWs ' ' = true := by
  refine ⟨by rfl, ?_⟩
  decide

/-- C8 (amended): every record's `dna_sequence` is the in-file-order
concatenation of the stripped sequence lines of its header block (this is
the spec-side `specBlocks` view, proved equal to the scanner), and it is
whitespace-free provided no sequence line contains internal whitespace —
the scanner trims only leading and trailing whitespace of each line, so
internal whitespace survives into `dna_sequence`. -/
theorem cargar_fasta_dna_concat (ls : List (List Char)) :
    cargarFasta ls = (specBlocks (ls.map pyStrip)).map renderBlock
    ∧ ((∀ l ∈ ls, startsGt (pyStrip l) = false → ∀ c ∈ pyStrip l, isPyWs c = false) →
        ∀ r ∈ cargarFasta ls, ∀ c ∈ r.dna_sequence, isPyWs c = false) := by
  constructor
  · exact cargarFastaAux_none_spec ls []
  · intro h r hr c hc
    exact cargarFastaAux_no_ws ls none [] h (by simp) r hr c hc

/-- Witness for C8 (amended) on a concrete two-block file with clean
sequence lines. -/
theorem cargar_fasta_dna_concat_witness :
    cargarFasta [">A.1".data, "ACGT".data, "TT".data, ">B.2".data, "GG".data]
      = (specBlocks ([">A.1".data, "ACGT".data, "TT".data, ">B.2".data, "GG".data].map
          pyStrip)).map renderBlock
    ∧ ∀ r ∈ cargarFasta [">A.1".data, "ACGT".data, "TT".data, ">B.2".data, "GG".data],
        ∀ c ∈ r.dna_sequence, isPyWs c = false := by
  refine ⟨(cargar_fasta_dna_concat _).1, (cargar_fasta_dna_concat _).2 ?_⟩
  decide

/-- Witness for C10: a concrete single-record collection has NaN (`none`)
standard deviation. -/
theorem calcular_estadisticas_std_sample_witness :
    (calcularEstadisticas
      [⟨"a".data, "ACGT".data, [], [], [], [], [], [], []⟩]).longitud_std = none :=
  (calcular_estadisticas_std_sample ⟨"a".data, "ACGT".data, [], [], [], [], [], [], []⟩).1
